import Mathlib

/-!
Verification of the OCR scoring engine (`src/utils/algorithms.ts`).

Texts are modelled as `List Char`, token sequences as `List α`, JavaScript
numbers as `ℚ` (all arithmetic performed by the engine on scores is exact
small-denominator rational arithmetic).  Each scorer from the source is
translated into an executable Lean definition; the claims of the spec are
proved about those definitions.
-/

set_option maxHeartbeats 1000000
set_option linter.unusedSectionVars false

/-- The whitespace class of the JavaScript regular expression `\s`,
used by `replace(/\s+/g,'')`, `split(/\s+/)` and `trim()` in the source. -/
def isWs (c : Char) : Bool :=
  c == ' ' || c == '\t' || c == '\n' || c == '\r' || c == '\u000B' || c == '\u000C' ||
    c == ' ' || c == ' ' || (decide (' ' ≤ c) && decide (c ≤ ' ')) ||
    c == ' ' || c == ' ' || c == ' ' || c == ' ' || c == '　' ||
    c == '﻿'

/-- `text.replace(/\s+/g, '')`: removing every whitespace character is the same
as keeping exactly the non-whitespace characters. -/
def cleanText (s : List Char) : List Char :=
  s.filter (fun c => !(isWs c))

/-- Accumulator worker for `tokenize`; `acc` holds the current in-progress word
in reverse order. -/
def tokenizeAux : List Char → List Char → List (List Char)
  | [], acc => if acc = [] then [] else [acc.reverse]
  | c :: cs, acc =>
      if isWs c then
        (if acc = [] then tokenizeAux cs [] else acc.reverse :: tokenizeAux cs [])
      else
        tokenizeAux cs (c :: acc)

/-- `text.trim().split(/\s+/).filter(t => t.length > 0)` from
`calculateWERWithDiff`: the list of maximal runs of non-whitespace characters,
in order. -/
def tokenize (s : List Char) : List (List Char) :=
  tokenizeAux s []

/-- The punctuation class of the source regular expression
`/[.,?!:;""''()-]/` in `calculatePunctuationAccuracy`: sentence terminators,
comma, colon, semicolon, the ASCII straight double quote (U+0022, listed
twice in the source class) and straight single quote (U+0027, also listed
twice), parentheses and hyphen. -/
def isPunct (c : Char) : Bool :=
  c == '.' || c == ',' || c == '?' || c == '!' || c == ':' || c == ';' ||
    c == '\u0022' || c == '\u0027' ||
    c == '(' || c == ')' || c == '-'

/-- `text.match(punctuationRegex) || []`: the ordered subsequence of
punctuation marks of a text. -/
def punctMarks (s : List Char) : List Char :=
  s.filter isPunct

variable {α : Type} [DecidableEq α]

/-- Reference structural recurrence for the minimal edit distance; used as the
mathematical yardstick in the proofs about the dynamic-programming table. -/
def lev : List α → List α → ℕ
  | [], ys => ys.length
  | xs, [] => xs.length
  | x :: xs, y :: ys =>
      min (lev xs (y :: ys) + 1)
        (min (lev (x :: xs) ys + 1) (lev xs ys + if x = y then 0 else 1))
  termination_by a b => (a.length, b.length)

/-- `Aligns a b k` holds when some sequence of single-token edit operations
(keeping a token, substituting a token, deleting a token from `a`, inserting a
token of `b`) transforms `a` into `b` using exactly `k` cost-one operations
(substitution, deletion, insertion; kept tokens are free). -/
inductive Aligns : List α → List α → ℕ → Prop
  | nil : Aligns [] [] 0
  | same (x : α) {xs ys : List α} {k : ℕ} :
      Aligns xs ys k → Aligns (x :: xs) (x :: ys) k
  | subst (x y : α) {xs ys : List α} {k : ℕ} :
      Aligns xs ys k → Aligns (x :: xs) (y :: ys) (k + 1)
  | del (x : α) {xs ys : List α} {k : ℕ} :
      Aligns xs ys k → Aligns (x :: xs) ys (k + 1)
  | ins (y : α) {xs ys : List α} {k : ℕ} :
      Aligns xs ys k → Aligns xs (y :: ys) (k + 1)

lemma aligns_nil_left (b : List α) : Aligns ([] : List α) b b.length := by
  induction b with
  | nil => exact .nil
  | cons y ys ih => exact .ins y ih

lemma aligns_nil_right (a : List α) : Aligns a ([] : List α) a.length := by
  induction a with
  | nil => exact .nil
  | cons x xs ih => exact .del x ih

lemma aligns_self (l : List α) : Aligns l l 0 := by
  induction l with
  | nil => exact .nil
  | cons x xs ih => exact .same x ih

lemma lev_nil_left (b : List α) : lev ([] : List α) b = b.length := by
  cases b <;> simp [lev]

lemma lev_nil_right (a : List α) : lev a ([] : List α) = a.length := by
  cases a <;> simp [lev]

lemma lev_cons_cons (x y : α) (xs ys : List α) :
    lev (x :: xs) (y :: ys) =
      min (lev xs (y :: ys) + 1)
        (min (lev (x :: xs) ys + 1) (lev xs ys + if x = y then 0 else 1)) := by
  simp [lev]

/-- The recurrence `lev` is a lower bound for the cost of every alignment. -/
lemma lev_le_of_aligns {a b : List α} {k : ℕ} (h : Aligns a b k) : lev a b ≤ k := by
  induction h with
  | nil => simp [lev]
  | same x h ih =>
      rw [lev_cons_cons]
      refine le_trans (le_trans (min_le_right _ _) (min_le_right _ _)) ?_
      simpa using ih
  | subst x y h ih =>
      rw [lev_cons_cons]
      refine le_trans (le_trans (min_le_right _ _) (min_le_right _ _)) ?_
      have : (if x = y then 0 else 1) ≤ 1 := by split <;> omega
      omega
  | del x h ih =>
      rename_i xs ys k'
      cases ys with
      | nil => rw [lev_nil_right] at ih ⊢; simp; omega
      | cons y ys' =>
          rw [lev_cons_cons]
          refine le_trans (min_le_left _ _) ?_
          omega
  | ins y h ih =>
      rename_i xs ys k'
      cases xs with
      | nil => rw [lev_nil_left] at ih ⊢; simp; omega
      | cons x xs' =>
          rw [lev_cons_cons]
          refine le_trans (le_trans (min_le_right _ _) (min_le_left _ _)) ?_
          omega

/-- The recurrence value is attained by some alignment. -/
lemma aligns_lev (a : List α) : ∀ b : List α, Aligns a b (lev a b) := by
  induction a with
  | nil => intro b; rw [lev_nil_left]; exact aligns_nil_left b
  | cons x xs iha =>
      intro b
      induction b with
      | nil => rw [lev_nil_right]; exact aligns_nil_right _
      | cons y ys ihb =>
          rw [lev_cons_cons]
          obtain h1 | h1 := min_choice (lev xs (y :: ys) + 1)
            (min (lev (x :: xs) ys + 1) (lev xs ys + if x = y then 0 else 1))
          · rw [h1]; exact .del x (iha (y :: ys))
          · rw [h1]
            obtain h2 | h2 := min_choice (lev (x :: xs) ys + 1)
              (lev xs ys + if x = y then 0 else 1)
            · rw [h2]; exact .ins y ihb
            · rw [h2]
              by_cases hxy : x = y
              · subst hxy
                simpa using Aligns.same x (iha ys)
              · rw [if_neg hxy]; exact .subst x y (iha ys)

lemma lev_self (l : List α) : lev l l = 0 :=
  Nat.le_zero.mp (lev_le_of_aligns (aligns_self l))

lemma aligns_snoc_del {a b : List α} {k : ℕ} (x : α) (h : Aligns a b k) :
    Aligns (a ++ [x]) b (k + 1) := by
  induction h with
  | nil => exact .del x .nil
  | same z h ih => exact .same z ih
  | subst z y h ih => exact .subst z y ih
  | del z h ih => exact .del z ih
  | ins y h ih => exact .ins y ih

lemma aligns_snoc_ins {a b : List α} {k : ℕ} (y : α) (h : Aligns a b k) :
    Aligns a (b ++ [y]) (k + 1) := by
  induction h with
  | nil => exact .ins y .nil
  | same z h ih => exact .same z ih
  | subst z w h ih => exact .subst z w ih
  | del z h ih => exact .del z ih
  | ins w h ih => exact .ins w ih

lemma aligns_snoc_same {a b : List α} {k : ℕ} (x : α) (h : Aligns a b k) :
    Aligns (a ++ [x]) (b ++ [x]) k := by
  induction h with
  | nil => exact .same x .nil
  | same z h ih => exact .same z ih
  | subst z w h ih => exact .subst z w ih
  | del z h ih => exact .del z ih
  | ins w h ih => exact .ins w ih

lemma aligns_snoc_subst {a b : List α} {k : ℕ} (x y : α) (h : Aligns a b k) :
    Aligns (a ++ [x]) (b ++ [y]) (k + 1) := by
  induction h with
  | nil => exact .subst x y .nil
  | same z h ih => exact .same z ih
  | subst z w h ih => exact .subst z w ih
  | del z h ih => exact .del z ih
  | ins w h ih => exact .ins w ih

lemma aligns_reverse {a b : List α} {k : ℕ} (h : Aligns a b k) :
    Aligns a.reverse b.reverse k := by
  induction h with
  | nil => exact .nil
  | same x h ih => simpa [List.reverse_cons] using aligns_snoc_same x ih
  | subst x y h ih => simpa [List.reverse_cons] using aligns_snoc_subst x y ih
  | del x h ih => simpa [List.reverse_cons] using aligns_snoc_del x ih
  | ins y h ih => simpa [List.reverse_cons] using aligns_snoc_ins y ih

lemma aligns_comm {a b : List α} {k : ℕ} (h : Aligns a b k) : Aligns b a k := by
  induction h with
  | nil => exact .nil
  | same x h ih => exact .same x ih
  | subst x y h ih => exact .subst y x ih
  | del x h ih => exact .ins x ih
  | ins y h ih => exact .del y ih

lemma lev_reverse (a b : List α) : lev a.reverse b.reverse = lev a b := by
  refine le_antisymm (lev_le_of_aligns (aligns_reverse (aligns_lev a b))) ?_
  have h := lev_le_of_aligns (aligns_reverse (aligns_lev a.reverse b.reverse))
  simpa using h

lemma lev_comm (a b : List α) : lev a b = lev b a :=
  le_antisymm (lev_le_of_aligns (aligns_comm (aligns_lev b a)))
    (lev_le_of_aligns (aligns_comm (aligns_lev a b)))

/-- One cell row of the dynamic-programming table of `levenshteinDistance`
(`dp[i+1][j]` as a function of the previous row `dp[i]`), following the
source recurrence `dp[i][j] = min(dp[i-1][j]+1, dp[i][j-1]+1, dp[i-1][j-1]+cost)`. -/
def dpCell (a b : List α) (prev : ℕ → ℕ) (i : ℕ) : ℕ → ℕ
  | 0 => i + 1
  | j + 1 =>
      min (prev (j + 1) + 1)
        (min (dpCell a b prev i j + 1)
          (prev j + if a.get? i = b.get? j then 0 else 1))

/-- The full dynamic-programming table `dp[i][j]` of the source, with base
cases `dp[i][0] = i` and `dp[0][j] = j`. -/
def dpW (a b : List α) : ℕ → ℕ → ℕ
  | 0 => fun j => j
  | i + 1 => dpCell a b (dpW a b i) i

lemma dpW_zero_left (a b : List α) (j : ℕ) : dpW a b 0 j = j := rfl

lemma dpW_zero_right (a b : List α) (i : ℕ) : dpW a b i 0 = i := by
  cases i <;> rfl

lemma dpW_succ_succ (a b : List α) (i j : ℕ) :
    dpW a b (i + 1) (j + 1) =
      min (dpW a b i (j + 1) + 1)
        (min (dpW a b (i + 1) j + 1)
          (dpW a b i j + if a.get? i = b.get? j then 0 else 1)) := rfl

/-- Every in-range cell of the table is the edit distance of the corresponding
(reversed) prefixes. -/
lemma dpW_eq_lev (a b : List α) :
    ∀ i j, i ≤ a.length → j ≤ b.length →
      dpW a b i j = lev (a.take i).reverse (b.take j).reverse := by
  intro i
  induction i with
  | zero =>
      intro j hi hj
      rw [dpW_zero_left, List.take_zero, List.reverse_nil, lev_nil_left]
      simp [Nat.min_eq_left hj]
  | succ i ih =>
      intro j
      induction j with
      | zero =>
          intro hi hj
          rw [dpW_zero_right, List.take_zero, List.reverse_nil, lev_nil_right]
          simp [Nat.min_eq_left hi]
      | succ j ihj =>
          intro hi hj
          have hi' : i < a.length := by omega
          have hj' : j < b.length := by omega
          have hxa : a.get? i = some (a.get ⟨i, hi'⟩) := List.get?_eq_get hi'
          have hxb : b.get? j = some (b.get ⟨j, hj'⟩) := List.get?_eq_get hj'
          have hA : (a.take (i + 1)).reverse = a.get ⟨i, hi'⟩ :: (a.take i).reverse := by
            rw [List.take_succ]
            simp [List.getElem?_eq_getElem hi', List.get_eq_getElem]
          have hB : (b.take (j + 1)).reverse = b.get ⟨j, hj'⟩ :: (b.take j).reverse := by
            rw [List.take_succ]
            simp [List.getElem?_eq_getElem hj', List.get_eq_getElem]
          rw [dpW_succ_succ, hA, hB, lev_cons_cons, ← hB, ← hA,
            ← ih (j + 1) (by omega) hj, ← ihj (by omega) (by omega),
            ← ih j (by omega) (by omega), hxa, hxb]
          simp only [Option.some.injEq]

/-- Interior of one row of the table, computed left to right exactly as the
inner loop of the source does: `ups` walks the previous row, `diag` and `left`
are the two already-known neighbours of the cell being filled. -/
def rowAux (x : α) : List α → List ℕ → ℕ → ℕ → List ℕ
  | [], _, _, _ => []
  | _ :: _, [], _, _ => []
  | y :: ys, up :: ups, diag, left =>
      let cell := min (up + 1) (min (left + 1) (diag + if x = y then 0 else 1))
      cell :: rowAux x ys ups up cell

/-- The outer loop of the source table computation: starting from row 0
(`[0, 1, …, n]`) it produces row `i+1` from row `i`, and returns the last row. -/
def levRows (b : List α) : List α → ℕ → List ℕ → List ℕ
  | [], _, row => row
  | x :: xs, i, row =>
      match row with
      | [] => []
      | d :: rest => levRows b xs (i + 1) ((i + 1) :: rowAux x b rest d (i + 1))

/-- `levenshteinDistance` from the source: fill the `(m+1)×(n+1)` table row by
row and return `dp[m][n]` (the last entry of the last row). -/
def levenshteinDistance (a b : List α) : ℕ :=
  (levRows b a 0 (List.range (b.length + 1))).getLastD 0

lemma rowAux_spec (a b : List α) (i : ℕ) (hi : i < a.length) :
    ∀ k j, j + k = b.length →
      rowAux (a.get ⟨i, hi⟩) (b.drop j) ((List.range' (j + 1) k).map (dpW a b i))
          (dpW a b i j) (dpW a b (i + 1) j)
        = (List.range' (j + 1) k).map (dpW a b (i + 1)) := by
  intro k
  induction k with
  | zero =>
      intro j hj
      have : b.drop j = [] := by
        rw [List.drop_eq_nil_iff_le]
        omega
      simp [this, rowAux]
  | succ k ihk =>
      intro j hj
      have hjlt : j < b.length := by omega
      have hdrop : b.drop j = b.get ⟨j, hjlt⟩ :: b.drop (j + 1) :=
        List.drop_eq_get_cons hjlt
      have hrange : List.range' (j + 1) (k + 1) = (j + 1) :: List.range' (j + 1 + 1) k :=
        List.range'_succ _ _ _
      rw [hdrop, hrange, List.map_cons, rowAux]
      have hcell :
          min (dpW a b i (j + 1) + 1)
            (min (dpW a b (i + 1) j + 1)
              (dpW a b i j + if a.get ⟨i, hi⟩ = b.get ⟨j, hjlt⟩ then 0 else 1))
          = dpW a b (i + 1) (j + 1) := by
        rw [dpW_succ_succ, List.get?_eq_get hi, List.get?_eq_get hjlt]
        simp only [Option.some.injEq]
      simp only [hcell, List.map_cons, List.cons.injEq]
      exact ⟨trivial, ihk (j + 1) (by omega)⟩

lemma dpW_row_head (a b : List α) (i : ℕ) :
    (List.range (b.length + 1)).map (dpW a b i)
      = dpW a b i 0 :: (List.range' 1 b.length).map (dpW a b i) := by
  rw [List.range_eq_range', List.range'_succ, List.map_cons]

lemma levRows_spec (a b : List α) :
    ∀ xs i, xs = a.drop i → i ≤ a.length →
      levRows b xs i ((List.range (b.length + 1)).map (dpW a b i))
        = (List.range (b.length + 1)).map (dpW a b a.length) := by
  intro xs
  induction xs with
  | nil =>
      intro i hxs hi
      have hia : i = a.length := by
        have := congrArg List.length hxs
        simp [List.length_drop] at this
        omega
      subst hia
      simp [levRows]
  | cons x xs ihx =>
      intro i hxs hi
      have hlen := congrArg List.length hxs
      simp [List.length_drop] at hlen
      have hi' : i < a.length := by omega
      have hdrop : a.drop i = a.get ⟨i, hi'⟩ :: a.drop (i + 1) :=
        List.drop_eq_get_cons hi'
      rw [hxs, hdrop, dpW_row_head, levRows]
      have hrow := rowAux_spec a b i hi' b.length 0 (by omega)
      rw [List.drop_zero] at hrow
      simp only [Nat.zero_add, dpW_zero_right] at hrow
      simp only [dpW_zero_right]
      rw [hrow]
      have hback : (i + 1) :: (List.range' 1 b.length).map (dpW a b (i + 1))
          = (List.range (b.length + 1)).map (dpW a b (i + 1)) := by
        rw [dpW_row_head, dpW_zero_right]
      rw [hback]
      have hxs' : xs = a.drop (i + 1) := by
        have h2 := hxs.trans hdrop
        exact (List.cons.injEq _ _ _ _ ▸ h2).2
      rw [← hxs']
      exact ihx (i + 1) hxs' (by omega)

/-- The row-by-row computation agrees with the abstract table. -/
lemma levenshteinDistance_eq_dpW (a b : List α) :
    levenshteinDistance a b = dpW a b a.length b.length := by
  unfold levenshteinDistance
  have h0 : (List.range (b.length + 1)).map (dpW a b 0) = List.range (b.length + 1) := by
    have : dpW a b 0 = fun j => j := rfl
    simp [this]
  rw [← h0, levRows_spec a b a 0 rfl (Nat.zero_le _), List.range_succ, List.map_append]
  simp

/-- The function `levenshteinDistance` of the source computes the reference
recurrence `lev`. -/
lemma levenshteinDistance_eq_lev (a b : List α) : levenshteinDistance a b = lev a b := by
  rw [levenshteinDistance_eq_dpW, dpW_eq_lev a b _ _ le_rfl le_rfl]
  simp [List.take_length, lev_reverse]

/-- `calculateCER` from the source: strip all whitespace from both texts, then
report edit distance over the remaining characters divided by the cleaned
truth length, with the explicit empty-truth branch. -/
def calculateCER (truth ocr : List Char) : ℚ :=
  let cleanTruth := cleanText truth
  let cleanOcr := cleanText ocr
  if cleanTruth.length = 0 then (if 0 < cleanOcr.length then 1 else 0)
  else (levenshteinDistance cleanTruth cleanOcr : ℚ) / cleanTruth.length

/-- Two texts are whitespace-equivalent when one is obtained from the other by
inserting and removing whitespace characters only. -/
inductive WsEquiv : List Char → List Char → Prop
  | step (pre suf : List Char) (c : Char) : isWs c = true →
      WsEquiv (pre ++ suf) (pre ++ c :: suf)
  | refl (s : List Char) : WsEquiv s s
  | symm {s t : List Char} : WsEquiv s t → WsEquiv t s
  | trans {s t u : List Char} : WsEquiv s t → WsEquiv t u → WsEquiv s u

lemma cleanText_of_wsEquiv {s t : List Char} (h : WsEquiv s t) :
    cleanText s = cleanText t := by
  induction h with
  | step pre suf c hc => simp [cleanText, List.filter_append, hc]
  | refl s => rfl
  | symm h ih => exact ih.symm
  | trans h1 h2 ih1 ih2 => exact ih1.trans ih2

/-- One element of the word-level diff: the source `DiffItem` object, with the
`'match'` tag rendered as `same`. -/
inductive DiffItem (τ : Type) where
  | same (truth ocr : τ)
  | substitution (truth ocr : τ)
  | insertion (ocr : τ)
  | deletion (truth : τ)
deriving DecidableEq

/-- The truth-side word carried by a diff item (`undefined` for insertions). -/
def DiffItem.truthTok {τ : Type} : DiffItem τ → Option τ
  | .same t _ => some t
  | .substitution t _ => some t
  | .deletion t => some t
  | .insertion _ => none

/-- The OCR-side word carried by a diff item (`undefined` for deletions). -/
def DiffItem.ocrTok {τ : Type} : DiffItem τ → Option τ
  | .same _ o => some o
  | .substitution _ o => some o
  | .insertion o => some o
  | .deletion _ => none

def DiffItem.isSub {τ : Type} : DiffItem τ → Bool
  | .substitution _ _ => true
  | _ => false

def DiffItem.isIns {τ : Type} : DiffItem τ → Bool
  | .insertion _ => true
  | _ => false

def DiffItem.isDel {τ : Type} : DiffItem τ → Bool
  | .deletion _ => true
  | _ => false

/-- The truth words of a diff sequence in order, skipping insertions. -/
def truthTokens {τ : Type} (l : List (DiffItem τ)) : List τ :=
  l.filterMap DiffItem.truthTok

/-- The OCR words of a diff sequence in order, skipping deletions. -/
def ocrTokens {τ : Type} (l : List (DiffItem τ)) : List τ :=
  l.filterMap DiffItem.ocrTok

/-- The source's backtrace-pointer table:
`ptr[i][0] = 1` (deletion), `ptr[0][j] = 2` (insertion, and it overwrites
`ptr[0][0]`), and inner cells pick `0` (diagonal) when the substitution value
is minimal, then `1` (up), then `2` (left) - the source tie-break order. -/
def ptr (a b : List α) : ℕ → ℕ → ℕ
  | 0, _ => 2
  | _ + 1, 0 => 1
  | i + 1, j + 1 =>
      let del := dpW a b i (j + 1) + 1
      let ins := dpW a b (i + 1) j + 1
      let sub := dpW a b i j + if a.get? i = b.get? j then 0 else 1
      if sub ≤ del ∧ sub ≤ ins then 0 else if del ≤ ins then 1 else 2

variable {τ : Type} [DecidableEq τ] [Inhabited τ]

/-- The backtracking loop of `calculateWERWithDiff`, walking from `(i, j)` to
`(0, 0)` and prepending one diff item per step (rendered here by recursing
first and appending).  `fuel` is only a structural-termination bound; every
step decreases `i + j` by at least one, so `fuel = i + j` never runs out. -/
def backtrack (a b : List τ) : ℕ → ℕ → ℕ → List (DiffItem τ)
  | 0, _, _ => []
  | fuel + 1, i, j =>
      if i = 0 ∧ j = 0 then []
      else if 0 < i ∧ 0 < j ∧ ptr a b i j = 0 then
        backtrack a b fuel (i - 1) (j - 1) ++
          [if a.getD (i - 1) default = b.getD (j - 1) default then
              DiffItem.same (a.getD (i - 1) default) (b.getD (j - 1) default)
            else
              DiffItem.substitution (a.getD (i - 1) default) (b.getD (j - 1) default)]
      else if 0 < j ∧ (i = 0 ∨ ptr a b i j = 2) then
        backtrack a b fuel i (j - 1) ++ [DiffItem.insertion (b.getD (j - 1) default)]
      else
        backtrack a b fuel (i - 1) j ++ [DiffItem.deletion (a.getD (i - 1) default)]

/-- Result record of `calculateWERWithDiff`. -/
structure WERResult where
  wer : ℚ
  diffs : List (DiffItem (List Char))

/-- `calculateWERWithDiff` from the source: tokenize both texts on whitespace,
fill the DP table and pointer table, backtrack into the ordered diff, and
report `dp[m][n] / m` with the explicit empty-truth branch. -/
def calculateWERWithDiff (truth ocr : List Char) : WERResult :=
  let tWords := tokenize truth
  let oWords := tokenize ocr
  let m := tWords.length
  let n := oWords.length
  let dist := dpW tWords oWords m n
  { wer := if m = 0 then (if 0 < n then 1 else 0) else (dist : ℚ) / m
    diffs := backtrack tWords oWords (m + n) m n }

/-- `calculatePunctuationAccuracy` from the source: edit distance between the
two ordered punctuation sequences, reported as `max(0, 1 - dist / count)`
with the explicit empty-truth-punctuation branch. -/
def calculatePunctuationAccuracy (truth ocr : List Char) : ℚ :=
  let truthPunc := punctMarks truth
  let ocrPunc := punctMarks ocr
  if truthPunc.length = 0 then (if ocrPunc.length = 0 then 1 else 0)
  else max 0 (1 - (levenshteinDistance truthPunc ocrPunc : ℚ) / truthPunc.length)

lemma getD_eq_get {l : List τ} {i : ℕ} (h : i < l.length) :
    l.getD i default = l.get ⟨i, h⟩ := by
  rw [List.getD_eq_getD_get?, List.get?_eq_get h]
  rfl

lemma ptr_succ_succ (a b : List τ) (i j : ℕ) :
    ptr a b (i + 1) (j + 1) =
      if dpW a b i j + (if a.get? i = b.get? j then 0 else 1) ≤ dpW a b i (j + 1) + 1 ∧
          dpW a b i j + (if a.get? i = b.get? j then 0 else 1) ≤ dpW a b (i + 1) j + 1 then 0
      else if dpW a b i (j + 1) + 1 ≤ dpW a b (i + 1) j + 1 then 1
      else 2 := rfl

lemma dpW_of_ptr_diag {a b : List τ} {i j : ℕ} (h : ptr a b (i + 1) (j + 1) = 0) :
    dpW a b (i + 1) (j + 1)
      = dpW a b i j + if a.get? i = b.get? j then 0 else 1 := by
  rw [ptr_succ_succ] at h
  rw [dpW_succ_succ]
  split_ifs at h ⊢ <;> omega

lemma dpW_of_ptr_left {a b : List τ} {i j : ℕ} (h : ptr a b (i + 1) (j + 1) = 2) :
    dpW a b (i + 1) (j + 1) = dpW a b (i + 1) j + 1 := by
  rw [ptr_succ_succ] at h
  rw [dpW_succ_succ]
  split_ifs at h ⊢ <;> omega

lemma dpW_of_ptr_up {a b : List τ} {i j : ℕ}
    (h0 : ptr a b (i + 1) (j + 1) ≠ 0) (h2 : ptr a b (i + 1) (j + 1) ≠ 2) :
    dpW a b (i + 1) (j + 1) = dpW a b i (j + 1) + 1 := by
  rw [ptr_succ_succ] at h0 h2
  rw [dpW_succ_succ]
  split_ifs at h0 h2 ⊢ <;> omega

lemma take_succ_get {γ : Type} {l : List γ} {i : ℕ} (h : i < l.length) :
    l.take (i + 1) = l.take i ++ [l.get ⟨i, h⟩] := by
  rw [List.take_succ]
  simp [List.getElem?_eq_getElem h, List.get_eq_getElem]

lemma truthTokens_append {γ : Type} (l1 l2 : List (DiffItem γ)) :
    truthTokens (l1 ++ l2) = truthTokens l1 ++ truthTokens l2 := by
  simp [truthTokens]

lemma ocrTokens_append {γ : Type} (l1 l2 : List (DiffItem γ)) :
    ocrTokens (l1 ++ l2) = ocrTokens l1 ++ ocrTokens l2 := by
  simp [ocrTokens]

/-- From any in-range cell, the backtrace visits every truth word and every
OCR word of the corresponding prefixes exactly once, in order: reading the
truth sides of the produced diff yields `a.take i`, the OCR sides `b.take j`. -/
lemma backtrack_tokens (a b : List τ) :
    ∀ fuel i j, i + j ≤ fuel → i ≤ a.length → j ≤ b.length →
      truthTokens (backtrack a b fuel i j) = a.take i ∧
      ocrTokens (backtrack a b fuel i j) = b.take j := by
  intro fuel
  induction fuel with
  | zero =>
      intro i j hf hi hj
      have hi0 : i = 0 := by omega
      have hj0 : j = 0 := by omega
      subst hi0; subst hj0
      simp [backtrack, truthTokens, ocrTokens]
  | succ fuel ihf =>
      intro i j hf hi hj
      rw [backtrack]
      by_cases h1 : i = 0 ∧ j = 0
      · rw [if_pos h1]
        obtain ⟨hi0, hj0⟩ := h1
        subst hi0; subst hj0
        simp [truthTokens, ocrTokens]
      · rw [if_neg h1]
        by_cases h2 : 0 < i ∧ 0 < j ∧ ptr a b i j = 0
        · rw [if_pos h2]
          obtain ⟨i', rfl⟩ : ∃ i', i = i' + 1 := ⟨i - 1, by omega⟩
          obtain ⟨j', rfl⟩ : ∃ j', j = j' + 1 := ⟨j - 1, by omega⟩
          have hi' : i' < a.length := by omega
          have hj' : j' < b.length := by omega
          have hga : a.getD (i' + 1 - 1) default = a.get ⟨i', hi'⟩ := getD_eq_get hi'
          have hgb : b.getD (j' + 1 - 1) default = b.get ⟨j', hj'⟩ := getD_eq_get hj'
          have ih := ihf i' j' (by omega) (by omega) (by omega)
          simp only [Nat.add_sub_cancel]
          rw [truthTokens_append, ocrTokens_append, ih.1, ih.2,
            take_succ_get hi', take_succ_get hj']
          constructor
          · split_ifs with heq <;>
              simp only [truthTokens, List.filterMap_cons, List.filterMap_nil,
                DiffItem.truthTok, getD_eq_get hi']
          · split_ifs with heq <;>
              simp only [ocrTokens, List.filterMap_cons, List.filterMap_nil,
                DiffItem.ocrTok, getD_eq_get hj']
        · rw [if_neg h2]
          by_cases h3 : 0 < j ∧ (i = 0 ∨ ptr a b i j = 2)
          · rw [if_pos h3]
            obtain ⟨j', rfl⟩ : ∃ j', j = j' + 1 := ⟨j - 1, by omega⟩
            have hj' : j' < b.length := by omega
            have hgb : b.getD (j' + 1 - 1) default = b.get ⟨j', hj'⟩ := getD_eq_get hj'
            have ih := ihf i j' (by omega) hi (by omega)
            simp only [Nat.add_sub_cancel]
            rw [truthTokens_append, ocrTokens_append, ih.1, ih.2, take_succ_get hj']
            constructor
            · simp only [truthTokens, List.filterMap_cons, List.filterMap_nil,
                DiffItem.truthTok, List.append_nil]
            · simp only [ocrTokens, List.filterMap_cons, List.filterMap_nil,
                DiffItem.ocrTok, getD_eq_get hj']
          · rw [if_neg h3]
            have hipos : 0 < i := by
              rcases Nat.eq_zero_or_pos i with hzi | hzi
              · exact absurd ⟨by omega, Or.inl hzi⟩ h3
              · exact hzi
            obtain ⟨i', rfl⟩ : ∃ i', i = i' + 1 := ⟨i - 1, by omega⟩
            have hi' : i' < a.length := by omega
            have hga : a.getD (i' + 1 - 1) default = a.get ⟨i', hi'⟩ := getD_eq_get hi'
            have ih := ihf i' j (by omega) (by omega) hj
            simp only [Nat.add_sub_cancel]
            rw [truthTokens_append, ocrTokens_append, ih.1, ih.2, take_succ_get hi']
            constructor
            · simp only [truthTokens, List.filterMap_cons, List.filterMap_nil,
                DiffItem.truthTok, getD_eq_get hi']
            · simp only [ocrTokens, List.filterMap_cons, List.filterMap_nil,
                DiffItem.ocrTok, List.append_nil]

lemma isSub_same {γ : Type} (u v : γ) : (DiffItem.same u v).isSub = false := rfl
lemma isIns_same {γ : Type} (u v : γ) : (DiffItem.same u v).isIns = false := rfl
lemma isDel_same {γ : Type} (u v : γ) : (DiffItem.same u v).isDel = false := rfl
lemma isSub_substitution {γ : Type} (u v : γ) : (DiffItem.substitution u v).isSub = true := rfl
lemma isIns_substitution {γ : Type} (u v : γ) : (DiffItem.substitution u v).isIns = false := rfl
lemma isDel_substitution {γ : Type} (u v : γ) : (DiffItem.substitution u v).isDel = false := rfl
lemma isSub_insertion {γ : Type} (u : γ) : (DiffItem.insertion u).isSub = false := rfl
lemma isIns_insertion {γ : Type} (u : γ) : (DiffItem.insertion u).isIns = true := rfl
lemma isDel_insertion {γ : Type} (u : γ) : (DiffItem.insertion u).isDel = false := rfl
lemma isSub_deletion {γ : Type} (u : γ) : (DiffItem.deletion u).isSub = false := rfl
lemma isIns_deletion {γ : Type} (u : γ) : (DiffItem.deletion u).isIns = false := rfl
lemma isDel_deletion {γ : Type} (u : γ) : (DiffItem.deletion u).isDel = true := rfl

/-- Substitution, insertion and deletion items of the backtrace of any
in-range cell add up exactly to the table value of that cell. -/
lemma backtrack_errors (a b : List τ) :
    ∀ fuel i j, i + j ≤ fuel → i ≤ a.length → j ≤ b.length →
      ((backtrack a b fuel i j).countP (fun d => d.isSub) +
        (backtrack a b fuel i j).countP (fun d => d.isIns) +
        (backtrack a b fuel i j).countP (fun d => d.isDel)) = dpW a b i j := by
  intro fuel
  induction fuel with
  | zero =>
      intro i j hf hi hj
      have hi0 : i = 0 := by omega
      have hj0 : j = 0 := by omega
      subst hi0; subst hj0
      simp [backtrack, dpW_zero_left]
  | succ fuel ihf =>
      intro i j hf hi hj
      rw [backtrack]
      by_cases h1 : i = 0 ∧ j = 0
      · rw [if_pos h1]
        obtain ⟨hi0, hj0⟩ := h1
        subst hi0; subst hj0
        simp [dpW_zero_left]
      · rw [if_neg h1]
        by_cases h2 : 0 < i ∧ 0 < j ∧ ptr a b i j = 0
        · rw [if_pos h2]
          obtain ⟨i', rfl⟩ : ∃ i', i = i' + 1 := ⟨i - 1, by omega⟩
          obtain ⟨j', rfl⟩ : ∃ j', j = j' + 1 := ⟨j - 1, by omega⟩
          have hi' : i' < a.length := by omega
          have hj' : j' < b.length := by omega
          have ih := ihf i' j' (by omega) (by omega) (by omega)
          have hdp := dpW_of_ptr_diag h2.2.2
          have hcost : (a.get? i' = b.get? j') ↔ a.getD i' default = b.getD j' default := by
            rw [List.get?_eq_get hi', List.get?_eq_get hj',
              getD_eq_get hi', getD_eq_get hj']
            exact Option.some_inj
          simp only [Nat.add_sub_cancel, List.countP_append]
          split_ifs with heq
          · have : a.get? i' = b.get? j' := hcost.mpr heq
            rw [hdp, if_pos this]
            simp [List.countP_cons, List.countP_nil, isSub_same, isIns_same, isDel_same]
            omega
          · have : ¬ (a.get? i' = b.get? j') := fun hx => heq (hcost.mp hx)
            rw [hdp, if_neg this]
            simp [List.countP_cons, List.countP_nil, isSub_substitution,
              isIns_substitution, isDel_substitution]
            omega
        · rw [if_neg h2]
          by_cases h3 : 0 < j ∧ (i = 0 ∨ ptr a b i j = 2)
          · rw [if_pos h3]
            obtain ⟨j', rfl⟩ : ∃ j', j = j' + 1 := ⟨j - 1, by omega⟩
            have ih := ihf i j' (by omega) hi (by omega)
            have hdp : dpW a b i (j' + 1) = dpW a b i j' + 1 := by
              rcases Nat.eq_zero_or_pos i with hzi | hzi
              · subst hzi
                simp [dpW_zero_left]
              · obtain ⟨i', rfl⟩ : ∃ i', i = i' + 1 := ⟨i - 1, by omega⟩
                rcases h3.2 with hz | hp
                · exact absurd hz (Nat.succ_ne_zero i')
                · exact dpW_of_ptr_left hp
            simp only [Nat.add_sub_cancel, List.countP_append]
            rw [hdp]
            simp [List.countP_cons, List.countP_nil, isSub_insertion,
              isIns_insertion, isDel_insertion]
            omega
          · rw [if_neg h3]
            have hipos : 0 < i := by
              rcases Nat.eq_zero_or_pos i with hzi | hzi
              · exact absurd ⟨by omega, Or.inl hzi⟩ h3
              · exact hzi
            obtain ⟨i', rfl⟩ : ∃ i', i = i' + 1 := ⟨i - 1, by omega⟩
            have ih := ihf i' j (by omega) (by omega) hj
            have hdp : dpW a b (i' + 1) j = dpW a b i' j + 1 := by
              rcases Nat.eq_zero_or_pos j with hzj | hzj
              · subst hzj
                simp [dpW_zero_right]
              · obtain ⟨j', rfl⟩ : ∃ j', j = j' + 1 := ⟨j - 1, by omega⟩
                have hptr0 : ptr a b (i' + 1) (j' + 1) ≠ 0 := fun hx =>
                  h2 ⟨by omega, by omega, hx⟩
                have hptr2 : ptr a b (i' + 1) (j' + 1) ≠ 2 := fun hx =>
                  h3 ⟨by omega, Or.inr hx⟩
                exact dpW_of_ptr_up hptr0 hptr2
            simp only [Nat.add_sub_cancel, List.countP_append]
            rw [hdp]
            simp [List.countP_cons, List.countP_nil, isSub_deletion,
              isIns_deletion, isDel_deletion]
            omega

/-- Length of the leftmost-greedy match of the separator pattern `\n\s*\n+`
inside a whitespace run that starts the text: everything up to and including
the last newline of the run. -/
def sepLen (run : List Char) : ℕ :=
  run.length - (run.reverse.takeWhile (fun c => !(c == '\n'))).length

/-- Worker for `splitParas`: scan the text, and wherever the whitespace run
starting at a newline contains a second newline the separator regular
expression `/\n\s*\n+/` matches, ending the current piece; `acc` holds the
piece under construction in reverse.  `fuel` only bounds the recursion
structurally: every step consumes at least one character, so starting fuel
`length + 1` never runs out. -/
def splitParasAux : ℕ → List Char → List Char → List (List Char)
  | 0, acc, _ => [acc.reverse]
  | _ + 1, acc, [] => [acc.reverse]
  | fuel + 1, acc, c :: cs =>
      if c = '\n' ∧ 2 ≤ (((c :: cs).takeWhile isWs).count '\n') then
        acc.reverse ::
          splitParasAux fuel [] ((c :: cs).drop (sepLen ((c :: cs).takeWhile isWs)))
      else
        splitParasAux fuel (c :: acc) cs

/-- `s.split(/\n\s*\n+/)` from `calculateParagraphF1`'s `normalize`. -/
def splitParas (s : List Char) : List (List Char) :=
  splitParasAux (s.length + 1) [] s

/-- `normalize` from `calculateParagraphF1`: drop carriage returns, split into
paragraph blocks at blank lines, strip all whitespace inside each block, and
drop blocks that become empty. -/
def normalizeParas (s : List Char) : List (List Char) :=
  ((splitParas (s.filter (fun c => !(c == '\r')))).map cleanText).filter
    (fun p => !(p.isEmpty))

/-- The inner `ocrParas.forEach` loop of `calculateParagraphF1`: walk the OCR
paragraphs with their indices, skip used ones, skip those rejected by the 10%
length pre-filter, and keep the index with the strictly smallest normalized
edit distance.  `none` plays the role of `bestMatchIdx = -1, bestDist = ∞`. -/
def scanBest (tPara : List Char) (used : List ℕ) :
    Option (ℕ × ℚ) → ℕ → List (List Char) → Option (ℕ × ℚ)
  | best, _, [] => best
  | best, oIdx, oPara :: rest =>
      if oIdx ∈ used then scanBest tPara used best (oIdx + 1) rest
      else if |(tPara.length : ℚ) - (oPara.length : ℚ)| / (tPara.length : ℚ) > 1 / 10 then
        scanBest tPara used best (oIdx + 1) rest
      else
        let nd : ℚ :=
          (levenshteinDistance tPara oPara : ℚ) / ((max tPara.length oPara.length : ℕ) : ℚ)
        match best with
        | none => scanBest tPara used (some (oIdx, nd)) (oIdx + 1) rest
        | some (bi, bd) =>
            if nd < bd then scanBest tPara used (some (oIdx, nd)) (oIdx + 1) rest
            else scanBest tPara used (some (bi, bd)) (oIdx + 1) rest

/-- The outer `truthParas.forEach` loop of `calculateParagraphF1`: for each
truth paragraph in order, take the best unused OCR candidate and count a true
positive (consuming the candidate) exactly when its normalized distance is at
most the 0.1 threshold. -/
def matchLoop (ocrParas : List (List Char)) :
    List (List Char) → ℕ → List ℕ → ℕ × List ℕ
  | [], tp, used => (tp, used)
  | tPara :: rest, tp, used =>
      match scanBest tPara used none 0 ocrParas with
      | some (bi, bd) =>
          if bd ≤ 1 / 10 then matchLoop ocrParas rest (tp + 1) (bi :: used)
          else matchLoop ocrParas rest tp used
      | none => matchLoop ocrParas rest tp used

/-- The matching phase of `calculateParagraphF1`: true-positive count and the
set of consumed OCR indices (as a list, most recent first). -/
def matchParas (truthParas ocrParas : List (List Char)) : ℕ × List ℕ :=
  matchLoop ocrParas truthParas 0 []

/-- `calculateParagraphF1` from the source: normalize both texts into
paragraph lists, match greedily, and return the F1 score of the match count
with the explicit empty-truth branch. -/
def calculateParagraphF1 (truth ocr : List Char) : ℚ :=
  let truthParas := normalizeParas truth
  let ocrParas := normalizeParas ocr
  if truthParas.length = 0 then (if ocrParas.length = 0 then 1 else 0)
  else
    let truePositives := (matchParas truthParas ocrParas).1
    let precision : ℚ :=
      if ocrParas.length = 0 then 0 else (truePositives : ℚ) / ocrParas.length
    let recl : ℚ :=
      if truthParas.length = 0 then 0 else (truePositives : ℚ) / truthParas.length
    if precision + recl = 0 then 0
    else 2 * precision * recl / (precision + recl)

/-- Written from the spec's words (§4.5), for comparison with the
implementation: the candidates for a truth paragraph are the not-yet-used OCR
paragraphs whose length differs from the truth paragraph's length by at most
10% of it, each paired with its normalized edit distance
(edit distance / longer length). -/
def specCandidates (tPara : List Char) (used : List ℕ) :
    ℕ → List (List Char) → List (ℕ × ℚ)
  | _, [] => []
  | oIdx, oPara :: rest =>
      if oIdx ∉ used ∧
          |(tPara.length : ℚ) - (oPara.length : ℚ)| ≤ (tPara.length : ℚ) / 10 then
        (oIdx,
          (levenshteinDistance tPara oPara : ℚ) / ((max tPara.length oPara.length : ℕ) : ℚ))
          :: specCandidates tPara used (oIdx + 1) rest
      else specCandidates tPara used (oIdx + 1) rest

/-- Written from the spec's words: among the candidates, the one with the
smallest normalized distance, the earliest on ties. -/
def specBest : List (ℕ × ℚ) → Option (ℕ × ℚ)
  | [] => none
  | c :: cs =>
      match specBest cs with
      | none => some c
      | some b => if b.2 < c.2 then some b else some c

/-- Written from the spec's words: greedy truth-driven matching, in the order
of the truth list, counting a true positive and consuming the chosen OCR
paragraph exactly when the smallest normalized distance is at most 0.10. -/
def specLoop (ocrParas : List (List Char)) :
    List (List Char) → ℕ → List ℕ → ℕ × List ℕ
  | [], tp, used => (tp, used)
  | tPara :: rest, tp, used =>
      match specBest (specCandidates tPara used 0 ocrParas) with
      | some (bi, bd) =>
          if bd ≤ 1 / 10 then specLoop ocrParas rest (tp + 1) (bi :: used)
          else specLoop ocrParas rest tp used
      | none => specLoop ocrParas rest tp used

/-- Merge the best candidate of a suffix with an already-held best (the held
best wins ties, since the implementation only replaces on strictly smaller). -/
def mergeBest : Option (ℕ × ℚ) → Option (ℕ × ℚ) → Option (ℕ × ℚ)
  | none, b => b
  | some m, none => some m
  | some m, some b => if m.2 < b.2 then some m else some b

lemma mergeBest_none_right (m : Option (ℕ × ℚ)) : mergeBest m none = m := by
  cases m <;> rfl

/-- The implementation's accumulator scan is the spec's argmin over the
filtered candidate list, merged with the incoming accumulator. -/
lemma scanBest_spec (tPara : List Char) (used : List ℕ) (ht : tPara ≠ []) :
    ∀ (rest : List (List Char)) (oIdx : ℕ) (best : Option (ℕ × ℚ)),
      scanBest tPara used best oIdx rest =
        mergeBest (specBest (specCandidates tPara used oIdx rest)) best := by
  have htpos : (0 : ℚ) < (tPara.length : ℚ) := by
    have : 0 < tPara.length := List.length_pos.mpr ht
    exact_mod_cast this
  intro rest
  induction rest with
  | nil => intro oIdx best; rfl
  | cons oPara rest ih =>
      intro oIdx best
      have key : (|(tPara.length : ℚ) - (oPara.length : ℚ)| / (tPara.length : ℚ) > 1 / 10)
          ↔ ¬ (|(tPara.length : ℚ) - (oPara.length : ℚ)| ≤ (tPara.length : ℚ) / 10) := by
        rw [gt_iff_lt, lt_div_iff htpos, not_le]
        constructor <;> intro h <;> linarith
      rw [scanBest, specCandidates]
      by_cases hmem : oIdx ∈ used
      · rw [if_pos hmem, if_neg (by simp [hmem])]
        exact ih _ _
      · rw [if_neg hmem]
        by_cases hfil :
            |(tPara.length : ℚ) - (oPara.length : ℚ)| / (tPara.length : ℚ) > 1 / 10
        · rw [if_pos hfil, if_neg (fun hc => (key.mp hfil) hc.2)]
          exact ih _ _
        · rw [if_neg hfil]
          have hle : |(tPara.length : ℚ) - (oPara.length : ℚ)|
              ≤ (tPara.length : ℚ) / 10 := by
            by_contra hc
            exact hfil (key.mpr hc)
          rw [if_pos ⟨hmem, hle⟩, specBest]
          rcases best with _ | ⟨bi, bd⟩ <;> dsimp only
          · rw [ih _ _]
            cases hsb : specBest (specCandidates tPara used (oIdx + 1) rest) with
            | none => rfl
            | some m => rcases m with ⟨mi, md⟩; simp only [mergeBest]; split_ifs <;> rfl
          · split_ifs with hlt
            · rw [ih _ _]
              cases hsb : specBest (specCandidates tPara used (oIdx + 1) rest) with
              | none => simp only [mergeBest, if_pos hlt]
              | some m =>
                  rcases m with ⟨mi, md⟩
                  simp only [mergeBest]
                  split_ifs <;> simp only [mergeBest] <;> split_ifs <;>
                    first | rfl | (exfalso; linarith)
            · rw [ih _ _]
              cases hsb : specBest (specCandidates tPara used (oIdx + 1) rest) with
              | none => simp only [mergeBest, if_neg hlt]
              | some m =>
                  rcases m with ⟨mi, md⟩
                  simp only [mergeBest]
                  split_ifs <;> simp only [mergeBest] <;> split_ifs <;>
                    first | rfl | (exfalso; linarith)

lemma scanBest_eq_specBest (tPara : List Char) (used : List ℕ) (ht : tPara ≠ [])
    (ocrParas : List (List Char)) :
    scanBest tPara used none 0 ocrParas = specBest (specCandidates tPara used 0 ocrParas) := by
  rw [scanBest_spec tPara used ht ocrParas 0 none, mergeBest_none_right]

/-- The implementation's matching loop coincides with the spec's greedy
matching, provided every truth paragraph is non-empty (which `normalizeParas`
guarantees). -/
lemma matchLoop_eq_specLoop (ocrParas : List (List Char)) :
    ∀ (rest : List (List Char)) (tp : ℕ) (used : List ℕ),
      (∀ p ∈ rest, p ≠ []) →
      matchLoop ocrParas rest tp used = specLoop ocrParas rest tp used := by
  intro rest
  induction rest with
  | nil => intro tp used hne; rfl
  | cons tPara rest ih =>
      intro tp used hne
      have ht : tPara ≠ [] := hne tPara (List.mem_cons_self _ _)
      have hne' : ∀ p ∈ rest, p ≠ [] := fun p hp => hne p (List.mem_cons_of_mem _ hp)
      rw [matchLoop, specLoop, scanBest_eq_specBest tPara used ht ocrParas]
      cases specBest (specCandidates tPara used 0 ocrParas) with
      | none => exact ih tp used hne'
      | some b =>
          rcases b with ⟨bi, bd⟩
          dsimp only
          split_ifs with hth
          · exact ih (tp + 1) (bi :: used) hne'
          · exact ih tp used hne'

/-- A fresh result produced by the scan (not inherited from the accumulator)
is never an already-used index. -/
lemma scanBest_not_used (tPara : List Char) (used : List ℕ) :
    ∀ (rest : List (List Char)) (oIdx : ℕ) (best : Option (ℕ × ℚ)) (r : ℕ × ℚ),
      scanBest tPara used best oIdx rest = some r → best = some r ∨ r.1 ∉ used := by
  intro rest
  induction rest with
  | nil => intro oIdx best r h; exact Or.inl h
  | cons oPara rest ih =>
      intro oIdx best r h
      rw [scanBest] at h
      by_cases hmem : oIdx ∈ used
      · rw [if_pos hmem] at h
        exact ih _ _ _ h
      · rw [if_neg hmem] at h
        by_cases hfil :
            |(tPara.length : ℚ) - (oPara.length : ℚ)| / (tPara.length : ℚ) > 1 / 10
        · rw [if_pos hfil] at h
          exact ih _ _ _ h
        · rw [if_neg hfil] at h
          dsimp only at h
          rcases best with _ | ⟨bi, bd⟩
          · rcases ih _ _ _ h with hcase | hcase
            · rw [Option.some_inj] at hcase
              subst hcase
              exact Or.inr hmem
            · exact Or.inr hcase
          · dsimp only at h
            split_ifs at h with hlt
            · rcases ih _ _ _ h with hcase | hcase
              · rw [Option.some_inj] at hcase
                subst hcase
                exact Or.inr hmem
              · exact Or.inr hcase
            · exact ih _ _ _ h

/-- The list of consumed OCR indices never repeats an index. -/
lemma matchLoop_nodup (ocrParas : List (List Char)) :
    ∀ (rest : List (List Char)) (tp : ℕ) (used : List ℕ),
      used.Nodup → (matchLoop ocrParas rest tp used).2.Nodup := by
  intro rest
  induction rest with
  | nil => intro tp used h; exact h
  | cons tPara rest ih =>
      intro tp used h
      rw [matchLoop]
      cases hsb : scanBest tPara used none 0 ocrParas with
      | none => exact ih tp used h
      | some b =>
          rcases b with ⟨bi, bd⟩
          dsimp only
          split_ifs with hth
          · refine ih (tp + 1) (bi :: used) (List.nodup_cons.mpr ⟨?_, h⟩)
            rcases scanBest_not_used tPara used ocrParas 0 none (bi, bd) hsb with hc | hc
            · exact absurd hc (by simp)
            · exact hc
          · exact ih tp used h

lemma normalizeParas_nonempty (s : List Char) : ∀ p ∈ normalizeParas s, p ≠ [] := by
  intro p hp hnil
  rw [normalizeParas, List.mem_filter] at hp
  subst hnil
  simp at hp

lemma scanBest_all_used (tPara : List Char) (used : List ℕ) :
    ∀ (l : List (List Char)) (best : Option (ℕ × ℚ)) (s : ℕ),
      (∀ k, s ≤ k → k < s + l.length → k ∈ used) →
      scanBest tPara used best s l = best := by
  intro l
  induction l with
  | nil => intro best s h; rfl
  | cons oPara l ih =>
      intro best s h
      rw [scanBest, if_pos (h s le_rfl (by simp))]
      exact ih best (s + 1) (fun k hk1 hk2 => h k (by omega) (by simp; omega))

lemma scanBest_keep_zero (tPara : List Char) (used : List ℕ) (bi : ℕ) :
    ∀ (l : List (List Char)) (s : ℕ),
      scanBest tPara used (some (bi, 0)) s l = some (bi, 0) := by
  intro l
  induction l with
  | nil => intro s; rfl
  | cons oPara l ih =>
      intro s
      rw [scanBest]
      split_ifs with hmem hfil
      · exact ih (s + 1)
      · exact ih (s + 1)
      · dsimp only
        rw [if_neg ?_]
        · exact ih (s + 1)
        · intro hlt
          have : (0 : ℚ) ≤ (levenshteinDistance tPara oPara : ℚ)
              / ((max tPara.length oPara.length : ℕ) : ℚ) :=
            div_nonneg (Nat.cast_nonneg _) (Nat.cast_nonneg _)
          linarith

lemma scanBest_append (tPara : List Char) (used : List ℕ) :
    ∀ (l1 l2 : List (List Char)) (best : Option (ℕ × ℚ)) (s : ℕ),
      scanBest tPara used best s (l1 ++ l2)
        = scanBest tPara used (scanBest tPara used best s l1) (s + l1.length) l2 := by
  intro l1
  induction l1 with
  | nil => intro l2 best s; simp [scanBest]
  | cons oPara l1 ih =>
      intro l2 best s
      have harith : s + 1 + l1.length = s + (l1.length + 1) := by omega
      rw [List.cons_append, scanBest, scanBest]
      split_ifs with hmem hfil
      · rw [ih, harith]
        simp only [List.length_cons]
      · rw [ih, harith]
        simp only [List.length_cons]
      · rcases best with _ | ⟨bi, bd⟩ <;> dsimp only
        · rw [ih, harith]
          simp only [List.length_cons]
        · split_ifs with hlt
          · rw [ih, harith]
            simp only [List.length_cons]
          · rw [ih, harith]
            simp only [List.length_cons]

/-- Scanning the whole OCR list for the `k`-th paragraph of an identical pair,
with exactly the first `k` indices consumed, finds the paragraph itself at
distance `0`. -/
lemma scanBest_identity (P : List (List Char)) (hne : ∀ p ∈ P, p ≠ []) (k : ℕ)
    (hk : k < P.length) (used : List ℕ) (hused : ∀ i, i ∈ used ↔ i < k) :
    scanBest (P.get ⟨k, hk⟩) used none 0 P = some (k, 0) := by
  set tp := P.get ⟨k, hk⟩ with htp
  have hsplit : P.take k ++ P.drop k = P := List.take_append_drop k P
  conv_lhs => rw [← hsplit]
  rw [scanBest_append]
  have htake : scanBest tp used none 0 (P.take k) = none := by
    apply scanBest_all_used
    intro i hi1 hi2
    rw [hused]
    have : (P.take k).length = k := by
      rw [List.length_take]
      omega
    omega
  rw [htake]
  have hlen : 0 + (P.take k).length = k := by
    rw [List.length_take]
    omega
  rw [hlen]
  rw [List.drop_eq_get_cons hk, scanBest]
  rw [if_neg (by rw [hused]; omega)]
  rw [if_neg ?_]
  · dsimp only
    have hnd : (levenshteinDistance tp (P.get ⟨k, hk⟩) : ℚ)
        / ((max tp.length (P.get ⟨k, hk⟩).length : ℕ) : ℚ) = 0 := by
      rw [← htp, levenshteinDistance_eq_lev, lev_self]
      simp
    rw [hnd]
    exact scanBest_keep_zero tp used k _ _
  · rw [← htp, sub_self, abs_zero, zero_div]
    norm_num

/-- Matching a paragraph list against itself matches every remaining truth
paragraph, one per step. -/
lemma matchLoop_identity (P : List (List Char)) (hne : ∀ p ∈ P, p ≠ []) :
    ∀ (rest : List (List Char)) (k tp : ℕ) (used : List ℕ),
      rest = P.drop k → k ≤ P.length → (∀ i, i ∈ used ↔ i < k) →
      (matchLoop P rest tp used).1 = tp + rest.length := by
  intro rest
  induction rest with
  | nil => intro k tp used hrest hk hused; simp [matchLoop]
  | cons tPara rest ih =>
      intro k tp used hrest hk hused
      have hklt : k < P.length := by
        have := congrArg List.length hrest
        simp [List.length_drop] at this
        omega
      have hdropk : P.drop k = P.get ⟨k, hklt⟩ :: P.drop (k + 1) :=
        List.drop_eq_get_cons hklt
      have hcons : tPara :: rest = P.get ⟨k, hklt⟩ :: P.drop (k + 1) := by
        rw [hrest, hdropk]
      have htPara : tPara = P.get ⟨k, hklt⟩ := (List.cons.injEq _ _ _ _ ▸ hcons).1
      have hrest' : rest = P.drop (k + 1) := (List.cons.injEq _ _ _ _ ▸ hcons).2
      rw [matchLoop, htPara, scanBest_identity P hne k hklt used hused]
      dsimp only
      rw [if_pos (by norm_num)]
      rw [ih (k + 1) (tp + 1) (k :: used) hrest' (by omega) ?_]
      · simp [List.length_cons]
        omega
      · intro i
        simp only [List.mem_cons, hused]
        omega

/-- C1: for every two token sequences, `levenshteinDistance` returns the
minimum number of single-token insertions, deletions and substitutions (unit
cost each) transforming one into the other (`IsLeast` over the costs of all
edit alignments); in particular, if either sequence is empty the result is the
other sequence's length. -/
theorem levenshteinDistance_minimal (α : Type) [DecidableEq α] (a b : List α) :
    IsLeast {k | Aligns a b k} (levenshteinDistance a b) ∧
    levenshteinDistance ([] : List α) b = b.length ∧
    levenshteinDistance a ([] : List α) = a.length := by
  refine ⟨?_, ?_, ?_⟩
  · rw [levenshteinDistance_eq_lev]
    exact ⟨aligns_lev a b, fun k hk => lev_le_of_aligns hk⟩
  · rw [levenshteinDistance_eq_lev, lev_nil_left]
  · rw [levenshteinDistance_eq_lev, lev_nil_right]

theorem levenshteinDistance_minimal_witness :
    IsLeast {k | Aligns ([1] : List ℕ) [2] k} (levenshteinDistance [1] [2]) ∧
    levenshteinDistance ([] : List ℕ) [2] = ([2] : List ℕ).length ∧
    levenshteinDistance ([1] : List ℕ) [] = ([1] : List ℕ).length :=
  levenshteinDistance_minimal ℕ [1] [2]

/-- C8: `levenshteinDistance` is symmetric in its two arguments. -/
theorem levenshteinDistance_symm (α : Type) [DecidableEq α] (a b : List α) :
    levenshteinDistance a b = levenshteinDistance b a := by
  rw [levenshteinDistance_eq_lev, levenshteinDistance_eq_lev, lev_comm]

theorem levenshteinDistance_symm_witness :
    levenshteinDistance ([1, 2] : List ℕ) [3] = levenshteinDistance [3] [1, 2] :=
  levenshteinDistance_symm ℕ [1, 2] [3]

/-- C2: the diff sequence of `calculateWERWithDiff` reproduces, in order, the
whitespace-tokenized truth word list when its truth tokens are read (skipping
insertions), and the OCR word list when its OCR tokens are read (skipping
deletions) — every word covered exactly once, left to right. -/
theorem calculateWERWithDiff_covers (truth ocr : List Char) :
    truthTokens (calculateWERWithDiff truth ocr).diffs = tokenize truth ∧
    ocrTokens (calculateWERWithDiff truth ocr).diffs = tokenize ocr := by
  have h := backtrack_tokens (tokenize truth) (tokenize ocr)
    ((tokenize truth).length + (tokenize ocr).length)
    (tokenize truth).length (tokenize ocr).length le_rfl le_rfl le_rfl
  rw [List.take_length, List.take_length] at h
  exact h

theorem calculateWERWithDiff_covers_witness :
    truthTokens (calculateWERWithDiff "a b".toList "b c".toList).diffs
      = tokenize "a b".toList ∧
    ocrTokens (calculateWERWithDiff "a b".toList "b c".toList).diffs
      = tokenize "b c".toList :=
  calculateWERWithDiff_covers "a b".toList "b c".toList

/-- C3: with `m` truth words and `n` OCR words, the reported word error rate
is `(S + I + D) / m` when `m > 0`, where `S`, `I`, `D` count the substitution,
insertion and deletion items of the returned diff; their sum is the edit
distance `dp[m][n]`; and when `m = 0` the score is `1` if `n > 0`, else `0`. -/
theorem calculateWERWithDiff_score (truth ocr : List Char) :
    (0 < (tokenize truth).length →
      (calculateWERWithDiff truth ocr).wer
        = (((calculateWERWithDiff truth ocr).diffs.countP (fun d => d.isSub)
            + (calculateWERWithDiff truth ocr).diffs.countP (fun d => d.isIns)
            + (calculateWERWithDiff truth ocr).diffs.countP (fun d => d.isDel) : ℕ) : ℚ)
          / ((tokenize truth).length : ℚ)) ∧
    ((calculateWERWithDiff truth ocr).diffs.countP (fun d => d.isSub)
      + (calculateWERWithDiff truth ocr).diffs.countP (fun d => d.isIns)
      + (calculateWERWithDiff truth ocr).diffs.countP (fun d => d.isDel))
        = dpW (tokenize truth) (tokenize ocr) (tokenize truth).length
            (tokenize ocr).length ∧
    ((tokenize truth).length = 0 →
      (calculateWERWithDiff truth ocr).wer
        = if 0 < (tokenize ocr).length then 1 else 0) := by
  have hcnt := backtrack_errors (tokenize truth) (tokenize ocr)
    ((tokenize truth).length + (tokenize ocr).length)
    (tokenize truth).length (tokenize ocr).length le_rfl le_rfl le_rfl
  have hdiffs : (calculateWERWithDiff truth ocr).diffs
      = backtrack (tokenize truth) (tokenize ocr)
          ((tokenize truth).length + (tokenize ocr).length)
          (tokenize truth).length (tokenize ocr).length := rfl
  refine ⟨?_, by rw [hdiffs]; exact hcnt, ?_⟩
  · intro hm
    show (if (tokenize truth).length = 0 then _ else _) = _
    rw [if_neg (by omega), hdiffs, hcnt]
  · intro hm
    show (if (tokenize truth).length = 0 then _ else _) = _
    rw [if_pos hm]

theorem calculateWERWithDiff_score_witness :
    (0 < (tokenize "a b".toList).length ∧
      (calculateWERWithDiff "a b".toList "a".toList).wer
        = (((calculateWERWithDiff "a b".toList "a".toList).diffs.countP (fun d => d.isSub)
            + (calculateWERWithDiff "a b".toList "a".toList).diffs.countP (fun d => d.isIns)
            + (calculateWERWithDiff "a b".toList "a".toList).diffs.countP (fun d => d.isDel)
              : ℕ) : ℚ)
          / ((tokenize "a b".toList).length : ℚ)) ∧
    ((tokenize "".toList).length = 0 ∧
      (calculateWERWithDiff "".toList "a".toList).wer
        = if 0 < (tokenize "a".toList).length then 1 else 0) :=
  ⟨⟨by decide, (calculateWERWithDiff_score "a b".toList "a".toList).1 (by decide)⟩,
    ⟨by decide, (calculateWERWithDiff_score "".toList "a".toList).2.2 (by decide)⟩⟩

/-- C6: `calculateCER` is invariant under inserting or removing whitespace
anywhere in either input text. -/
theorem calculateCER_ws_invariant {t t' o o' : List Char}
    (ht : WsEquiv t t') (ho : WsEquiv o o') :
    calculateCER t o = calculateCER t' o' := by
  have h1 := cleanText_of_wsEquiv ht
  have h2 := cleanText_of_wsEquiv ho
  simp only [calculateCER, h1, h2]

theorem calculateCER_ws_invariant_witness :
    calculateCER "ab cd".toList "ab".toList = calculateCER "abcd".toList "ab".toList :=
  calculateCER_ws_invariant
    (WsEquiv.symm (WsEquiv.step "ab".toList "cd".toList ' ' rfl))
    (WsEquiv.refl "ab".toList)

/-- C7: comparing any text against itself yields the perfect score in all four
scorers: CER 0, WER 0, punctuation accuracy 1, paragraph F1 1. -/
theorem scorers_perfect_on_identical (A : List Char) :
    calculateCER A A = 0 ∧ (calculateWERWithDiff A A).wer = 0 ∧
    calculatePunctuationAccuracy A A = 1 ∧ calculateParagraphF1 A A = 1 := by
  refine ⟨?_, ?_, ?_, ?_⟩
  · rw [calculateCER]
    by_cases h : (cleanText A).length = 0
    · rw [if_pos h, if_neg (by omega)]
    · rw [if_neg h, levenshteinDistance_eq_lev, lev_self]
      simp
  · show (if (tokenize A).length = 0 then _ else _) = _
    by_cases h : (tokenize A).length = 0
    · rw [if_pos h, if_neg (by omega)]
    · rw [if_neg h]
      have hz : dpW (tokenize A) (tokenize A) (tokenize A).length (tokenize A).length = 0 := by
        rw [dpW_eq_lev _ _ _ _ le_rfl le_rfl, List.take_length, lev_self]
      rw [hz]
      simp
  · rw [calculatePunctuationAccuracy]
    by_cases h : (punctMarks A).length = 0
    · rw [if_pos h, if_pos h]
    · rw [if_neg h, levenshteinDistance_eq_lev, lev_self]
      norm_num
  · rw [calculateParagraphF1]
    dsimp only
    by_cases hP : (normalizeParas A).length = 0
    · rw [if_pos hP, if_pos hP]
    · rw [if_neg hP]
      have htp : (matchParas (normalizeParas A) (normalizeParas A)).1
          = (normalizeParas A).length := by
        have := matchLoop_identity (normalizeParas A) (normalizeParas_nonempty A)
          (normalizeParas A) 0 0 [] (List.drop_zero _).symm (Nat.zero_le _) (by simp)
        simpa [matchParas] using this
      rw [htp, if_neg hP]
      have hcast : ((normalizeParas A).length : ℚ) ≠ 0 := Nat.cast_ne_zero.mpr hP
      simp only [div_self hcast]
      norm_num

/-- C9: every scorer has an explicit empty-denominator branch: when the
cleaned truth, the truth word list, the truth punctuation list or the truth
paragraph list is empty, the score is the documented policy value, defined
without performing the division. -/
theorem scorers_total_empty_policy (truth ocr : List Char) :
    ((cleanText truth).length = 0 →
      calculateCER truth ocr = if 0 < (cleanText ocr).length then 1 else 0) ∧
    ((tokenize truth).length = 0 →
      (calculateWERWithDiff truth ocr).wer
        = if 0 < (tokenize ocr).length then 1 else 0) ∧
    ((punctMarks truth).length = 0 →
      calculatePunctuationAccuracy truth ocr
        = if (punctMarks ocr).length = 0 then 1 else 0) ∧
    ((normalizeParas truth).length = 0 →
      calculateParagraphF1 truth ocr
        = if (normalizeParas ocr).length = 0 then 1 else 0) := by
  refine ⟨?_, ?_, ?_, ?_⟩
  · intro h
    rw [calculateCER]
    rw [if_pos h]
  · intro h
    show (if (tokenize truth).length = 0 then _ else _) = _
    rw [if_pos h]
  · intro h
    rw [calculatePunctuationAccuracy]
    rw [if_pos h]
  · intro h
    rw [calculateParagraphF1]
    dsimp only
    rw [if_pos h]

theorem scorers_total_empty_policy_witness :
    ((cleanText ([] : List Char)).length = 0 ∧
      calculateCER [] ['x'] = if 0 < (cleanText ['x']).length then 1 else 0) ∧
    ((tokenize ([] : List Char)).length = 0 ∧
      (calculateWERWithDiff [] ['x']).wer = if 0 < (tokenize ['x']).length then 1 else 0) ∧
    ((punctMarks ([] : List Char)).length = 0 ∧
      calculatePunctuationAccuracy [] ['x']
        = if (punctMarks ['x']).length = 0 then 1 else 0) ∧
    ((normalizeParas ([] : List Char)).length = 0 ∧
      calculateParagraphF1 [] ['x']
        = if (normalizeParas ['x']).length = 0 then 1 else 0) :=
  ⟨⟨by decide, (scorers_total_empty_policy [] ['x']).1 (by decide)⟩,
    ⟨by decide, (scorers_total_empty_policy [] ['x']).2.1 (by decide)⟩,
    ⟨by decide, (scorers_total_empty_policy [] ['x']).2.2.1 (by decide)⟩,
    ⟨by decide, (scorers_total_empty_policy [] ['x']).2.2.2 (by decide)⟩⟩

/-- C10: the character error rate is not clamped to 1 — a one-character truth
against a two-character disjoint OCR text scores 2 — while the punctuation
accuracy is clamped below by 0 for all inputs. -/
theorem calculateCER_exceeds_one :
    calculateCER ['a'] ['x', 'y'] = 2 ∧ 1 < calculateCER ['a'] ['x', 'y'] ∧
    ∀ truth ocr : List Char, 0 ≤ calculatePunctuationAccuracy truth ocr := by
  have hval : calculateCER ['a'] ['x', 'y'] = 2 := by
    rw [calculateCER]
    rw [if_neg (by decide)]
    have hd : levenshteinDistance (cleanText ['a']) (cleanText ['x', 'y']) = 2 := by decide
    have hl : (cleanText ['a']).length = 1 := by decide
    rw [hd, hl]
    norm_num
  refine ⟨hval, by rw [hval]; norm_num, ?_⟩
  intro truth ocr
  rw [calculatePunctuationAccuracy]
  split_ifs with h1 h2
  · norm_num
  · norm_num
  · exact le_max_left _ _

/-- C4: the matching phase of `calculateParagraphF1` is exactly the spec's
greedy truth-driven matching — candidates filtered by the 10% length
pre-filter among unused OCR paragraphs, smallest normalized edit distance
(earliest on ties) chosen, a true positive counted and the paragraph consumed
exactly when that distance is at most 0.10 — and no OCR paragraph is consumed
twice. -/
theorem calculateParagraphF1_greedy (truth ocr : List Char) :
    matchParas (normalizeParas truth) (normalizeParas ocr)
      = specLoop (normalizeParas ocr) (normalizeParas truth) 0 [] ∧
    (matchParas (normalizeParas truth) (normalizeParas ocr)).2.Nodup := by
  constructor
  · rw [matchParas]
    exact matchLoop_eq_specLoop (normalizeParas ocr) (normalizeParas truth) 0 []
      (normalizeParas_nonempty truth)
  · rw [matchParas]
    exact matchLoop_nodup (normalizeParas ocr) (normalizeParas truth) 0 [] List.nodup_nil

theorem calculateParagraphF1_greedy_witness :
    matchParas (normalizeParas "a\n\nb".toList) (normalizeParas "a\n\nc".toList)
      = specLoop (normalizeParas "a\n\nc".toList) (normalizeParas "a\n\nb".toList) 0 [] ∧
    (matchParas (normalizeParas "a\n\nb".toList) (normalizeParas "a\n\nc".toList)).2.Nodup :=
  calculateParagraphF1_greedy "a\n\nb".toList "a\n\nc".toList

/-- C5 (counterexample): for the pair whose truth text splits into the blocks
`"Hello world"` and `"Goodbye"` and whose OCR text splits into
`"Hello world"` and `"Goodbye!"`, the paragraph score is not 1. -/
theorem calculateParagraphF1_scenario_counterexample :
    splitParas ("Hello world\n\nGoodbye".toList.filter (fun c => !(c == '\r')))
      = ["Hello world".toList, "Goodbye".toList] ∧
    splitParas ("Hello world\n\nGoodbye!".toList.filter (fun c => !(c == '\r')))
      = ["Hello world".toList, "Goodbye!".toList] ∧
    calculateParagraphF1 "Hello world\n\nGoodbye".toList "Hello world\n\nGoodbye!".toList
      ≠ 1 := by
  refine ⟨by decide, by decide, ?_⟩
  have h1 : normalizeParas "Hello world\n\nGoodbye".toList
      = ["Helloworld".toList, "Goodbye".toList] := by decide
  have h2 : normalizeParas "Hello world\n\nGoodbye!".toList
      = ["Helloworld".toList, "Goodbye!".toList] := by decide
  have hlev : levenshteinDistance ['H', 'e', 'l', 'l', 'o', 'w', 'o', 'r', 'l', 'd']
      ['H', 'e', 'l', 'l', 'o', 'w', 'o', 'r', 'l', 'd'] = 0 := by decide
  rw [calculateParagraphF1, h1, h2]
  norm_num [matchParas, matchLoop, scanBest, hlev]

/-- C5 (amended): on that pair the second truth paragraph (`"Goodbye"` vs
`"Goodbye!"`) is rejected by the 10% length pre-filter (1/7 > 10%), so only
the first paragraph matches: precision = recall = 1/2 and the score is 1/2. -/
theorem calculateParagraphF1_scenario :
    splitParas ("Hello world\n\nGoodbye".toList.filter (fun c => !(c == '\r')))
      = ["Hello world".toList, "Goodbye".toList] ∧
    splitParas ("Hello world\n\nGoodbye!".toList.filter (fun c => !(c == '\r')))
      = ["Hello world".toList, "Goodbye!".toList] ∧
    calculateParagraphF1 "Hello world\n\nGoodbye".toList "Hello world\n\nGoodbye!".toList
      = 1 / 2 := by
  refine ⟨by decide, by decide, ?_⟩
  have h1 : normalizeParas "Hello world\n\nGoodbye".toList
      = ["Helloworld".toList, "Goodbye".toList] := by decide
  have h2 : normalizeParas "Hello world\n\nGoodbye!".toList
      = ["Helloworld".toList, "Goodbye!".toList] := by decide
  have hlev : levenshteinDistance ['H', 'e', 'l', 'l', 'o', 'w', 'o', 'r', 'l', 'd']
      ['H', 'e', 'l', 'l', 'o', 'w', 'o', 'r', 'l', 'd'] = 0 := by decide
  rw [calculateParagraphF1, h1, h2]
  norm_num [matchParas, matchLoop, scanBest, hlev]

theorem scorers_perfect_on_identical_witness :
    calculateCER "the cat".toList "the cat".toList = 0 ∧
    (calculateWERWithDiff "the cat".toList "the cat".toList).wer = 0 ∧
    calculatePunctuationAccuracy "the cat".toList "the cat".toList = 1 ∧
    calculateParagraphF1 "the cat".toList "the cat".toList = 1 :=
  scorers_perfect_on_identical "the cat".toList
